import Mathlib

/-!
Shallow embedding of `src/model/val.py` (threshold-sweep validation of a
binary segmentation model) and proofs of the specification claims.

Arrays are modelled as flat lists of pixels (all operations in the source
are elementwise, so the spatial shape is irrelevant).  Logits and
thresholds are rationals, labels and segmentations are naturals
(the source stores them as uint8), and the metric values live in the
reals (the source divides floats and takes a square root).
-/

namespace Val

/-- Embedding of `post(logits, label, threshold)` at a single pixel:
the output starts at 127, is set to 255 where `logits >= threshold`,
and finally set to 0 where `label == 0` (the last assignment wins). -/
def postPixel (threshold logit : ℚ) (lab : ℕ) : ℕ :=
  let thresholded : ℕ := 127
  let thresholded : ℕ := if logit ≥ threshold then 255 else thresholded
  let thresholded : ℕ := if lab = 0 then 0 else thresholded
  thresholded

/-- Embedding of `post` from `val.py`: elementwise over the two arrays. -/
def post (logits : List ℚ) (label : List ℕ) (threshold : ℚ) : List ℕ :=
  List.zipWith (fun l lab => postPixel threshold l lab) logits label

/-- Count of pixels with `segmentation == 255 AND label == 255`. -/
def true_positive (segmentation label : List ℕ) : ℕ :=
  (segmentation.zip label).countP fun p => p.1 == 255 && p.2 == 255

/-- Count of pixels with `segmentation == 255 AND label != 255`. -/
def false_positive (segmentation label : List ℕ) : ℕ :=
  (segmentation.zip label).countP fun p => p.1 == 255 && !(p.2 == 255)

/-- Count of pixels with `segmentation == 127 AND label == 127`. -/
def true_negative (segmentation label : List ℕ) : ℕ :=
  (segmentation.zip label).countP fun p => p.1 == 127 && p.2 == 127

/-- Count of pixels with `segmentation == 127 AND label != 127`. -/
def false_negative (segmentation label : List ℕ) : ℕ :=
  (segmentation.zip label).countP fun p => p.1 == 127 && !(p.2 == 127)

/-- Embedding of `metrics(segmentation, label)` from `val.py`: the
8-element vector [iou, f1, g_mean, accuracy, sensitivity, specificity,
precision, recall], with epsilon = 1e-7 added to every denominator. -/
noncomputable def metrics (segmentation label : List ℕ) : List ℝ :=
  let epsilon : ℝ := 1 / 10 ^ 7
  let tp : ℝ := true_positive segmentation label
  let fp : ℝ := false_positive segmentation label
  let tn : ℝ := true_negative segmentation label
  let fn : ℝ := false_negative segmentation label
  let accuracy := (tp + tn) / (tp + tn + fp + fn + epsilon)
  let sensitivity := tp / (tp + fn + epsilon)
  let specificity := tn / (fp + tn + epsilon)
  let precision := tp / (tp + fp + epsilon)
  let recall' := sensitivity
  let iou := tp / (tp + fp + fn + epsilon)
  let f1 := (2 * precision * recall') / (precision + recall' + epsilon)
  let g_mean := Real.sqrt (sensitivity * specificity)
  [iou, f1, g_mean, accuracy, sensitivity, specificity, precision, recall']

/-- Reference definition of the metric vector transcribed from the
specification text (section 4.2), to be compared with `metrics`:
TP = count(segmentation==255 AND label==255), FP, TN, FN likewise,
accuracy = (TP+TN)/(TP+TN+FP+FN+eps), sensitivity = recall =
TP/(TP+FN+eps), specificity = TN/(FP+TN+eps), precision = TP/(TP+FP+eps),
iou = TP/(TP+FP+FN+eps), f1 = 2*precision*recall/(precision+recall+eps),
g_mean = sqrt(sensitivity*specificity), output order
[iou, f1, g_mean, accuracy, sensitivity, specificity, precision, recall]. -/
noncomputable def metrics_spec (segmentation label : List ℕ) : List ℝ :=
  let eps : ℝ := 1 / 10 ^ 7
  let TP : ℝ := ((segmentation.zip label).countP fun p => p.1 == 255 && p.2 == 255)
  let FP : ℝ := ((segmentation.zip label).countP fun p => p.1 == 255 && !(p.2 == 255))
  let TN : ℝ := ((segmentation.zip label).countP fun p => p.1 == 127 && p.2 == 127)
  let FN : ℝ := ((segmentation.zip label).countP fun p => p.1 == 127 && !(p.2 == 127))
  let accuracy := (TP + TN) / (TP + TN + FP + FN + eps)
  let sensitivity := TP / (TP + FN + eps)
  let recall' := TP / (TP + FN + eps)
  let specificity := TN / (FP + TN + eps)
  let precision := TP / (TP + FP + eps)
  let iou := TP / (TP + FP + FN + eps)
  let f1 := 2 * precision * recall' / (precision + recall' + eps)
  let g_mean := Real.sqrt (sensitivity * specificity)
  [iou, f1, g_mean, accuracy, sensitivity, specificity, precision, recall']

/-- The module-level constant `number_of_thresholds = 20` from `val.py`. -/
def number_of_thresholds : ℕ := 20

/-- Embedding of `1 / (1 + np.exp(-x))`, the probability corresponding to
a logit (lines 106-107 of `val.py`). -/
noncomputable def sigmoid (x : ℝ) : ℝ := 1 / (1 + Real.exp (-x))

/-- Embedding of `np.log(p) - np.log(1 - p)`, the prob2logit conversion
(line 111 of `val.py`). -/
noncomputable def logit (p : ℝ) : ℝ := Real.log p - Real.log (1 - p)

/-- Embedding of `logits.min()`: the minimum entry of a (nonempty) array;
0 on the empty array, on which numpy would raise. -/
def arrMin : List ℝ → ℝ
  | [] => 0
  | x :: xs => xs.foldl min x

/-- Embedding of `logits.max()`: the maximum entry of a (nonempty) array;
0 on the empty array, on which numpy would raise. -/
def arrMax : List ℝ → ℝ
  | [] => 0
  | x :: xs => xs.foldl max x

/-- Embedding of `np.linspace(a, b, n)`: n points from a to b inclusive.
For n = 1 the quotient is 0 / 0 = 0 and the single point is `a`, as in
numpy. -/
noncomputable def linspace (a b : ℝ) (n : ℕ) : List ℝ :=
  (List.range n).map fun i : ℕ => a + (b - a) * (i : ℝ) / ((n : ℝ) - 1)

/-- The probabilities sampled by the Threshold Sampler (line 110):
`np.linspace(min_prob, max_prob, number_of_thresholds)` where
`min_prob = sigmoid(logits.min())` and `max_prob = sigmoid(logits.max())`. -/
noncomputable def sampleProbs (logits : List ℝ) : List ℝ :=
  linspace (sigmoid (arrMin logits)) (sigmoid (arrMax logits)) number_of_thresholds

/-- The thresholds of the sweep (line 111): each sampled probability
converted back to logit space. -/
noncomputable def sampleThresholds (logits : List ℝ) : List ℝ :=
  (sampleProbs logits).map logit

/-- Embedding of `np.random.randint(n)`: a uniformly drawn index below
`n`, modelled as an arbitrary draw `r` reduced mod `n`; for `n = 0` the
range `[0, 0)` is empty and numpy raises, modelled as `none`. -/
def randint (n r : ℕ) : Option ℕ :=
  if n = 0 then none else some (r % n)

/-- Embedding of lines 95-96 of `val.py`: draw a random index over the
manifest lines and select that line; fails when the manifest is empty. -/
def sampleLine {α : Type} (lines : List α) (r : ℕ) : Option α :=
  (randint lines.length r).bind fun i => lines.get? i

/-- Elementwise sum of two metric vectors (`metric_accum += ...`). -/
def vecAdd (a b : List ℝ) : List ℝ := List.zipWith (· + ·) a b

/-- Embedding of the accumulation loop for one threshold (lines 118-138):
starting from `np.zeros(8)`, add the metric vector of every manifest
entry in manifest order.  An entry is the (logits, label) pair the model
and IO adapters produce for a manifest row. -/
noncomputable def metric_accum (entries : List (List ℚ × List ℕ)) (t : ℚ) : List ℝ :=
  entries.foldl (fun acc e => vecAdd acc (metrics (post e.1 e.2 t) e.2))
    (List.replicate 8 0)

/-- Embedding of `mean_metrics = metric_accum / number_of_examples`
(lines 141-142), where `number_of_examples` is the number of manifest
rows processed. -/
noncomputable def mean_metrics (entries : List (List ℚ × List ℕ)) (t : ℚ) : List ℝ :=
  (metric_accum entries t).map fun x => x / (entries.length : ℝ)

/-- Helper: a pixel that survives threshold `t2` also survives any lower
threshold `t1`. -/
theorem postPixel_255_mono {t1 t2 l : ℚ} {b : ℕ} (h : t1 ≤ t2)
    (h2 : postPixel t2 l b = 255) : postPixel t1 l b = 255 := by
  unfold postPixel at h2 ⊢
  by_cases hb : b = 0
  · simp [hb] at h2
  · by_cases ha : t2 ≤ l
    · simp [hb, ge_iff_le, le_trans h ha]
    · simp [hb, ge_iff_le, ha] at h2

/-- C1: pixelwise characterization of `post`: a pixel with label 0 maps
to 0 whatever the logit and threshold are; any other pixel maps to 255
when its logit is at least the threshold and to 127 otherwise. -/
theorem post_pixelwise (logits : List ℚ) (label : List ℕ) (t : ℚ) (i : ℕ)
    (h1 : i < logits.length) (h2 : i < label.length) :
    (post logits label t).getD i 0
      = if label.getD i 0 = 0 then 0
        else if logits.getD i 0 ≥ t then 255 else 127 := by
  have hlen : i < (post logits label t).length := by
    simp only [post, List.length_zipWith]
    omega
  rw [List.getD_eq_getElem _ _ hlen, List.getD_eq_getElem _ _ h1,
    List.getD_eq_getElem _ _ h2]
  simp [post, postPixel]

/-- Witness for C1 at a concrete input. -/
theorem post_pixelwise_witness :
    1 < [(1 : ℚ), -2].length ∧ 1 < [(0 : ℕ), 3].length ∧
    (post [(1 : ℚ), -2] [0, 3] 0).getD 1 0
      = if [(0 : ℕ), 3].getD 1 0 = 0 then 0
        else if [(1 : ℚ), -2].getD 1 0 ≥ 0 then 255 else 127 :=
  ⟨by decide, by decide, post_pixelwise [(1 : ℚ), -2] [0, 3] 0 1 (by decide) (by decide)⟩

/-- C2: the metric vector computed by the code coincides with the
reference definition transcribed from the specification. -/
theorem metrics_matches_spec (segmentation label : List ℕ) :
    metrics segmentation label = metrics_spec segmentation label := rfl

/-- C3: every pixel of a segmentation produced by `post` is one of the
three admissible values 0, 127 and 255. -/
theorem post_range_invariant (logits : List ℚ) (label : List ℕ) (t : ℚ) :
    (post logits label t).Forall fun v => v = 0 ∨ v = 127 ∨ v = 255 := by
  induction logits generalizing label with
  | nil => simp [post]
  | cons a as ih =>
    cases label with
    | nil => simp [post]
    | cons b bs =>
      simp only [post, List.zipWith_cons_cons, List.forall_cons]
      refine ⟨?_, ih bs⟩
      unfold postPixel
      by_cases hb : b = 0 <;> by_cases ha : t ≤ a <;> simp [hb, ge_iff_le, ha]

/-- C5: for a fixed logits map and label, raising the threshold cannot
increase the number of pixels classified 255. -/
theorem post_count255_antitone (logits : List ℚ) (label : List ℕ)
    (t1 t2 : ℚ) (h : t1 ≤ t2) :
    (post logits label t2).count 255 ≤ (post logits label t1).count 255 := by
  induction logits generalizing label with
  | nil => simp [post]
  | cons a as ih =>
    cases label with
    | nil => simp [post]
    | cons b bs =>
      simp only [post, List.zipWith_cons_cons, List.count_cons]
      have hpix : (if postPixel t2 a b == (255 : ℕ) then 1 else 0)
          ≤ (if postPixel t1 a b == (255 : ℕ) then 1 else 0) := by
        by_cases h2 : postPixel t2 a b = 255
        · have h1 := postPixel_255_mono h h2
          simp [h1, h2]
        · simp [beq_iff_eq, h2]
      exact Nat.add_le_add (ih bs) hpix

/-- Witness for C5 at a concrete input. -/
theorem post_count255_antitone_witness :
    (0 : ℚ) ≤ 1 ∧
    (post [(1 : ℚ) / 2] [1] 1).count 255 ≤ (post [(1 : ℚ) / 2] [1] 0).count 255 :=
  ⟨by norm_num, post_count255_antitone [(1 : ℚ) / 2] [1] 0 1 (by norm_num)⟩

/-- Helper: bounds for each entry of the metric vector, over arbitrary
nonnegative counts and a positive epsilon, stated in the exact shape and
order in which `metrics` lists its entries. -/
theorem metrics_entries_bounded (tp fp tn fn e : ℝ)
    (htp : 0 ≤ tp) (hfp : 0 ≤ fp) (htn : 0 ≤ tn) (hfn : 0 ≤ fn) (he : 0 < e) :
    (0 ≤ tp / (tp + fp + fn + e) ∧ tp / (tp + fp + fn + e) ≤ 1) ∧
    (0 ≤ 2 * (tp / (tp + fp + e)) * (tp / (tp + fn + e))
          / (tp / (tp + fp + e) + tp / (tp + fn + e) + e) ∧
      2 * (tp / (tp + fp + e)) * (tp / (tp + fn + e))
          / (tp / (tp + fp + e) + tp / (tp + fn + e) + e) ≤ 1) ∧
    (0 ≤ Real.sqrt (tp / (tp + fn + e) * (tn / (fp + tn + e))) ∧
      Real.sqrt (tp / (tp + fn + e) * (tn / (fp + tn + e))) ≤ 1) ∧
    (0 ≤ (tp + tn) / (tp + tn + fp + fn + e) ∧
      (tp + tn) / (tp + tn + fp + fn + e) ≤ 1) ∧
    (0 ≤ tp / (tp + fn + e) ∧ tp / (tp + fn + e) ≤ 1) ∧
    (0 ≤ tn / (fp + tn + e) ∧ tn / (fp + tn + e) ≤ 1) ∧
    (0 ≤ tp / (tp + fp + e) ∧ tp / (tp + fp + e) ≤ 1) ∧
    (0 ≤ tp / (tp + fn + e) ∧ tp / (tp + fn + e) ≤ 1) := by
  have hdiou : 0 < tp + fp + fn + e := by linarith
  have hdacc : 0 < tp + tn + fp + fn + e := by linarith
  have hdsen : 0 < tp + fn + e := by linarith
  have hdspe : 0 < fp + tn + e := by linarith
  have hdpre : 0 < tp + fp + e := by linarith
  have hp0 : 0 ≤ tp / (tp + fp + e) := div_nonneg htp hdpre.le
  have hp1 : tp / (tp + fp + e) ≤ 1 := (div_le_one hdpre).mpr (by linarith)
  have hr0 : 0 ≤ tp / (tp + fn + e) := div_nonneg htp hdsen.le
  have hr1 : tp / (tp + fn + e) ≤ 1 := (div_le_one hdsen).mpr (by linarith)
  have hs0 : 0 ≤ tn / (fp + tn + e) := div_nonneg htn hdspe.le
  have hs1 : tn / (fp + tn + e) ≤ 1 := (div_le_one hdspe).mpr (by linarith)
  have hdf1 : 0 < tp / (tp + fp + e) + tp / (tp + fn + e) + e := by linarith
  refine ⟨⟨div_nonneg htp hdiou.le, (div_le_one hdiou).mpr (by linarith)⟩,
    ⟨div_nonneg (by nlinarith) hdf1.le, (div_le_one hdf1).mpr ?_⟩,
    ⟨Real.sqrt_nonneg _, Real.sqrt_le_one.mpr (mul_le_one₀ hr1 hs0 hs1)⟩,
    ⟨div_nonneg (by linarith) hdacc.le, (div_le_one hdacc).mpr (by linarith)⟩,
    ⟨hr0, hr1⟩, ⟨hs0, hs1⟩, ⟨hp0, hp1⟩, ⟨hr0, hr1⟩⟩
  nlinarith [mul_nonneg (sub_nonneg.mpr hp1) hr0,
    mul_nonneg hp0 (sub_nonneg.mpr hr1)]

/-- C4: every denominator used by `metrics` is strictly positive thanks
to the epsilon, and every entry of the returned vector lies in [0, 1]. -/
theorem metrics_bounded (seg lab : List ℕ) :
    (0 : ℝ) < (true_positive seg lab : ℝ) + (true_negative seg lab : ℝ)
        + (false_positive seg lab : ℝ) + (false_negative seg lab : ℝ) + 1 / 10 ^ 7 ∧
    (0 : ℝ) < (true_positive seg lab : ℝ) + (false_negative seg lab : ℝ) + 1 / 10 ^ 7 ∧
    (0 : ℝ) < (false_positive seg lab : ℝ) + (true_negative seg lab : ℝ) + 1 / 10 ^ 7 ∧
    (0 : ℝ) < (true_positive seg lab : ℝ) + (false_positive seg lab : ℝ) + 1 / 10 ^ 7 ∧
    (0 : ℝ) < (true_positive seg lab : ℝ) + (false_positive seg lab : ℝ)
        + (false_negative seg lab : ℝ) + 1 / 10 ^ 7 ∧
    (metrics seg lab).Forall fun x => 0 ≤ x ∧ x ≤ 1 := by
  refine ⟨by positivity, by positivity, by positivity, by positivity, by positivity, ?_⟩
  have key := metrics_entries_bounded (true_positive seg lab : ℝ)
    (false_positive seg lab : ℝ) (true_negative seg lab : ℝ)
    (false_negative seg lab : ℝ) (1 / 10 ^ 7)
    (Nat.cast_nonneg _) (Nat.cast_nonneg _) (Nat.cast_nonneg _)
    (Nat.cast_nonneg _) (by norm_num)
  simpa only [metrics, List.Forall] using key

/-- Helper: counting a conjunction and its complement-conjunction splits
the count of the first conjunct. -/
theorem countP_and_split {α : Type} (l : List α) (p q : α → Bool) :
    l.countP (fun x => p x && q x) + l.countP (fun x => p x && !(q x))
      = l.countP p := by
  induction l with
  | nil => simp
  | cons a l ih =>
    simp only [List.countP_cons]
    cases hp : p a <;> cases hq : q a <;> simp [hp, hq] <;> omega

/-- Helper: counting a predicate on the first component of a zip of two
equally long lists counts it on the first list. -/
theorem countP_fst_zip (seg lab : List ℕ) (h : seg.length = lab.length)
    (p : ℕ → Bool) :
    (seg.zip lab).countP (fun x => p x.1) = seg.countP p := by
  induction seg generalizing lab with
  | nil => simp
  | cons a as ih =>
    cases lab with
    | nil => simp at h
    | cons b bs =>
      simp only [List.zip_cons_cons, List.countP_cons]
      rw [ih bs (by simpa using h)]

/-- Helper: two pointwise incompatible predicates together count at most
the length of the list. -/
theorem countP_disjoint_le (l : List ℕ) (p q : ℕ → Bool)
    (h : ∀ a, ¬(p a = true ∧ q a = true)) :
    l.countP p + l.countP q ≤ l.length := by
  induction l with
  | nil => simp
  | cons a l ih =>
    simp only [List.countP_cons, List.length_cons]
    have ha := h a
    cases hp : p a <;> cases hq : q a <;> simp [hp, hq] at ha ⊢ <;> omega

/-- C9: the confusion counts are pairwise disjoint: TP + FP is exactly
the number of pixels with segmentation 255, TN + FN exactly the number
with segmentation 127, and the four together never exceed the pixel
count. -/
theorem confusion_counts_partition (seg lab : List ℕ)
    (h : seg.length = lab.length) :
    true_positive seg lab + false_positive seg lab
        = seg.countP (fun v => v == 255) ∧
    true_negative seg lab + false_negative seg lab
        = seg.countP (fun v => v == 127) ∧
    true_positive seg lab + false_positive seg lab + true_negative seg lab
        + false_negative seg lab ≤ seg.length := by
  have h255 : true_positive seg lab + false_positive seg lab
      = seg.countP (fun v => v == 255) :=
    (countP_and_split (seg.zip lab) (fun x => x.1 == 255)
      (fun x => x.2 == 255)).trans (countP_fst_zip seg lab h (fun v => v == 255))
  have h127 : true_negative seg lab + false_negative seg lab
      = seg.countP (fun v => v == 127) :=
    (countP_and_split (seg.zip lab) (fun x => x.1 == 127)
      (fun x => x.2 == 127)).trans (countP_fst_zip seg lab h (fun v => v == 127))
  refine ⟨h255, h127, ?_⟩
  have hdisj : ∀ a : ℕ, ¬((a == 255) = true ∧ (a == 127) = true) := by
    intro a ⟨h1, h2⟩
    simp [beq_iff_eq] at h1 h2
    omega
  have hle := countP_disjoint_le seg (fun v => v == 255) (fun v => v == 127) hdisj
  omega

/-- Witness for C9 at a concrete input. -/
theorem confusion_counts_partition_witness :
    ([255, 127, 0] : List ℕ).length = ([255, 255, 0] : List ℕ).length ∧
    (true_positive [255, 127, 0] [255, 255, 0]
        + false_positive [255, 127, 0] [255, 255, 0]
        = ([255, 127, 0] : List ℕ).countP (fun v => v == 255) ∧
      true_negative [255, 127, 0] [255, 255, 0]
        + false_negative [255, 127, 0] [255, 255, 0]
        = ([255, 127, 0] : List ℕ).countP (fun v => v == 127) ∧
      true_positive [255, 127, 0] [255, 255, 0]
        + false_positive [255, 127, 0] [255, 255, 0]
        + true_negative [255, 127, 0] [255, 255, 0]
        + false_negative [255, 127, 0] [255, 255, 0]
        ≤ ([255, 127, 0] : List ℕ).length) :=
  ⟨rfl, confusion_counts_partition [255, 127, 0] [255, 255, 0] rfl⟩

/-- C10: on the empty (zero-pixel) input, every confusion count is zero
and `metrics` returns the all-zero vector. -/
theorem metrics_empty_input :
    metrics ([] : List ℕ) ([] : List ℕ) = [0, 0, 0, 0, 0, 0, 0, 0] := by
  simp [metrics, true_positive, false_positive, true_negative, false_negative]

/-- Helper: folding `min` over a list never goes above the start value. -/
theorem foldl_min_le (l : List ℝ) (a : ℝ) : l.foldl min a ≤ a := by
  induction l generalizing a with
  | nil => simp
  | cons x xs ih => exact le_trans (ih (min a x)) (min_le_left a x)

/-- Helper: folding `max` over a list never goes below the start value. -/
theorem le_foldl_max (l : List ℝ) (a : ℝ) : a ≤ l.foldl max a := by
  induction l generalizing a with
  | nil => simp
  | cons x xs ih => exact le_trans (le_max_left a x) (ih (max a x))

/-- Helper: the minimum of an array is at most its maximum. -/
theorem arrMin_le_arrMax (l : List ℝ) : arrMin l ≤ arrMax l := by
  cases l with
  | nil => simp [arrMin, arrMax]
  | cons x xs => exact le_trans (foldl_min_le xs x) (le_foldl_max xs x)

/-- Helper: the sigmoid is strictly positive. -/
theorem sigmoid_pos (x : ℝ) : 0 < sigmoid x := by
  unfold sigmoid
  have := Real.exp_pos (-x)
  positivity

/-- Helper: the sigmoid is strictly below one. -/
theorem sigmoid_lt_one (x : ℝ) : sigmoid x < 1 := by
  unfold sigmoid
  have h := Real.exp_pos (-x)
  rw [div_lt_one (by linarith)]
  linarith

/-- Helper: the sigmoid is monotone. -/
theorem sigmoid_mono {x y : ℝ} (h : x ≤ y) : sigmoid x ≤ sigmoid y := by
  unfold sigmoid
  have hx := Real.exp_pos (-x)
  have hy := Real.exp_pos (-y)
  have hexp : Real.exp (-y) ≤ Real.exp (-x) := Real.exp_le_exp.mpr (by linarith)
  apply one_div_le_one_div_of_le (by linarith) (by linarith)

/-- Helper: the inverse-sigmoid conversion round-trips through the
sigmoid on the open unit interval. -/
theorem sigmoid_logit {p : ℝ} (h0 : 0 < p) (h1 : p < 1) :
    sigmoid (logit p) = p := by
  unfold sigmoid logit
  have h1p : 0 < 1 - p := by linarith
  rw [show -(Real.log p - Real.log (1 - p)) = Real.log ((1 - p) / p) by
    rw [Real.log_div (by linarith) (by linarith)]; ring]
  rw [Real.exp_log (by positivity)]
  have hden : 1 + (1 - p) / p = 1 / p := by field_simp
  rw [hden, one_div_one_div]

/-- Helper: the inverse-sigmoid conversion is monotone on the open unit
interval. -/
theorem logit_mono {p q : ℝ} (hp : 0 < p) (hq : q < 1) (h : p ≤ q) :
    logit p ≤ logit q := by
  unfold logit
  have l1 : Real.log p ≤ Real.log q := Real.log_le_log hp h
  have l2 : Real.log (1 - q) ≤ Real.log (1 - p) :=
    Real.log_le_log (by linarith) (by linarith)
  linarith

/-- Helper: `linspace a b n` has exactly n points. -/
theorem linspace_length (a b : ℝ) (n : ℕ) : (linspace a b n).length = n := by
  simp [linspace]

/-- Helper: for a ≤ b, every point of `linspace a b n` lies in [a, b]. -/
theorem linspace_mem (a b : ℝ) (hab : a ≤ b) (n : ℕ) :
    ∀ p ∈ linspace a b n, a ≤ p ∧ p ≤ b := by
  intro p hp
  simp only [linspace, List.mem_map, List.mem_range] at hp
  obtain ⟨i, hi, rfl⟩ := hp
  match n with
  | 0 => omega
  | 1 =>
    have hz : i = 0 := by omega
    subst hz
    norm_num
    exact hab
  | (m + 2) =>
    have hn : (0 : ℝ) < ((m + 2 : ℕ) : ℝ) - 1 := by
      push_cast
      have : (0 : ℝ) ≤ (m : ℝ) := Nat.cast_nonneg m
      linarith
    have hba : (0 : ℝ) ≤ b - a := by linarith
    constructor
    · have : 0 ≤ (b - a) * i / (((m + 2 : ℕ) : ℝ) - 1) :=
        div_nonneg (mul_nonneg hba (Nat.cast_nonneg i)) hn.le
      linarith
    · have hi' : (i : ℝ) ≤ ((m + 2 : ℕ) : ℝ) - 1 := by
        have h1 : (i : ℝ) ≤ ((m + 1 : ℕ) : ℝ) := Nat.cast_le.mpr (by omega)
        push_cast at h1 ⊢
        linarith
      have : (b - a) * i / (((m + 2 : ℕ) : ℝ) - 1) ≤ b - a := by
        rw [div_le_iff₀ hn]
        nlinarith
      linarith

/-- Helper: for a ≤ b, `linspace a b n` is non-decreasing. -/
theorem linspace_sorted (a b : ℝ) (hab : a ≤ b) (n : ℕ) :
    List.Sorted (· ≤ ·) (linspace a b n) := by
  match n with
  | 0 => simp [linspace]
  | 1 => simp [linspace]
  | (m + 2) =>
    have hn : (0 : ℝ) < ((m + 2 : ℕ) : ℝ) - 1 := by
      push_cast
      have : (0 : ℝ) ≤ (m : ℝ) := Nat.cast_nonneg m
      linarith
    unfold linspace
    refine List.Pairwise.map _ ?_ (List.pairwise_lt_range _)
    intro i j hij
    have hcast : (i : ℝ) ≤ j := by exact_mod_cast le_of_lt hij
    have hba : (0 : ℝ) ≤ b - a := by linarith
    have hstep : (b - a) * i / (((m + 2 : ℕ) : ℝ) - 1)
        ≤ (b - a) * j / (((m + 2 : ℕ) : ℝ) - 1) :=
      (div_le_div_iff_of_pos_right hn).mpr (mul_le_mul_of_nonneg_left hcast hba)
    linarith [hstep]

/-- C6: the sampled probabilities and thresholds both have length
`number_of_thresholds`, both sequences are non-decreasing, and the
inverse-sigmoid conversion round-trips through the sigmoid on every
sampled probability. -/
theorem threshold_sampler_spec (logits : List ℝ) :
    (sampleThresholds logits).length = number_of_thresholds ∧
    (sampleProbs logits).length = number_of_thresholds ∧
    List.Sorted (· ≤ ·) (sampleProbs logits) ∧
    List.Sorted (· ≤ ·) (sampleThresholds logits) ∧
    (sampleProbs logits).Forall fun p => sigmoid (logit p) = p := by
  have hab : sigmoid (arrMin logits) ≤ sigmoid (arrMax logits) :=
    sigmoid_mono (arrMin_le_arrMax logits)
  have hbounds : ∀ p ∈ sampleProbs logits, 0 < p ∧ p < 1 := by
    intro p hp
    obtain ⟨h1, h2⟩ := linspace_mem _ _ hab number_of_thresholds p hp
    exact ⟨lt_of_lt_of_le (sigmoid_pos _) h1, lt_of_le_of_lt h2 (sigmoid_lt_one _)⟩
  refine ⟨?_, ?_, ?_, ?_, ?_⟩
  · simp [sampleThresholds, sampleProbs, linspace_length]
  · simp [sampleProbs, linspace_length]
  · exact linspace_sorted _ _ hab _
  · have hs := linspace_sorted (sigmoid (arrMin logits)) (sigmoid (arrMax logits))
      hab number_of_thresholds
    unfold sampleThresholds
    refine List.pairwise_map.mpr ?_
    refine List.Pairwise.imp_of_mem ?_ hs
    intro a b ha hb hle
    exact logit_mono (hbounds a ha).1 (hbounds b hb).2 hle
  · rw [List.forall_iff_forall_mem]
    intro p hp
    exact sigmoid_logit (hbounds p hp).1 (hbounds p hp).2

/-- C8 helper is the model itself: on an empty manifest the random index
draw has an empty range and fails; on a nonempty manifest it always
selects a line. -/
theorem empty_manifest_sampler_fails :
    (∀ r : ℕ, sampleLine ([] : List ℕ) r = none) ∧
    ∀ (lines : List ℕ) (r : ℕ), lines ≠ [] →
      ∃ line, sampleLine lines r = some line := by
  constructor
  · intro r
    simp [sampleLine, randint]
  · intro lines r hne
    have hlen : lines.length ≠ 0 := fun hz => hne (List.length_eq_zero.mp hz)
    have hmod : r % lines.length < lines.length :=
      Nat.mod_lt _ (Nat.pos_of_ne_zero hlen)
    refine ⟨lines.get ⟨r % lines.length, hmod⟩, ?_⟩
    simp [sampleLine, randint, hlen, List.get?_eq_get hmod]

/-- Witness for C8 at a concrete input. -/
theorem empty_manifest_sampler_fails_witness :
    ([5] : List ℕ) ≠ [] ∧ ∃ line, sampleLine ([5] : List ℕ) 3 = some line :=
  ⟨by decide, empty_manifest_sampler_fails.2 [5] 3 (by decide)⟩

/-- Helper: the metric vector always has 8 entries. -/
theorem metrics_length (seg lab : List ℕ) : (metrics seg lab).length = 8 := rfl

/-- Helper: elementwise vector addition acts componentwise on `getD` for
equally long vectors. -/
theorem getD_vecAdd (a b : List ℝ) (i : ℕ) (h : a.length = b.length) :
    (vecAdd a b).getD i 0 = a.getD i 0 + b.getD i 0 := by
  induction a generalizing b i with
  | nil =>
    cases b with
    | nil => simp [vecAdd]
    | cons y ys => simp at h
  | cons x xs ih =>
    cases b with
    | nil => simp at h
    | cons y ys =>
      cases i with
      | zero => simp [vecAdd]
      | succ k => simpa [vecAdd] using ih ys k (by simpa using h)

/-- Helper: the accumulator keeps its 8 entries through the fold. -/
theorem accum_length (entries : List (List ℚ × List ℕ)) (t : ℚ) (acc : List ℝ)
    (h : acc.length = 8) :
    (entries.foldl (fun acc e => vecAdd acc (metrics (post e.1 e.2 t) e.2))
      acc).length = 8 := by
  induction entries generalizing acc with
  | nil => exact h
  | cons e es ih =>
    simp only [List.foldl_cons]
    exact ih _ (by simp [vecAdd, h, metrics_length])

/-- Helper: any entry of the all-zero vector is zero. -/
theorem getD_replicate_zero (n i : ℕ) :
    (List.replicate n (0 : ℝ)).getD i 0 = 0 := by
  induction n generalizing i with
  | zero => simp
  | succ m ih =>
    cases i with
    | zero => simp
    | succ k => simp [ih k]

/-- Helper: the accumulation fold sums each component over the entries. -/
theorem getD_accum (entries : List (List ℚ × List ℕ)) (t : ℚ) (i : ℕ)
    (acc : List ℝ) (h : acc.length = 8) :
    (entries.foldl (fun acc e => vecAdd acc (metrics (post e.1 e.2 t) e.2))
        acc).getD i 0
      = acc.getD i 0
        + (entries.map fun e => (metrics (post e.1 e.2 t) e.2).getD i 0).sum := by
  induction entries generalizing acc with
  | nil => simp
  | cons e es ih =>
    simp only [List.foldl_cons, List.map_cons, List.sum_cons]
    rw [ih _ (by simp [vecAdd, h, metrics_length])]
    rw [getD_vecAdd _ _ _ (by simp [h, metrics_length])]
    ring

/-- Helper: dividing every entry of a vector acts componentwise on
`getD`. -/
theorem getD_map_div (l : List ℝ) (c : ℝ) (i : ℕ) :
    (l.map fun x => x / c).getD i 0 = l.getD i 0 / c := by
  induction l generalizing i with
  | nil => simp
  | cons x xs ih =>
    cases i with
    | zero => simp
    | succ k => simpa using ih k

/-- C7: for each threshold, the reported mean metric vector has 8
entries and each entry equals the sum over all manifest entries, in
manifest order and starting from a zero accumulator, of the
corresponding metric of that entry's segmentation, divided by the
number of manifest entries. -/
theorem mean_metrics_is_sum_div_count (entries : List (List ℚ × List ℕ)) (t : ℚ) :
    (mean_metrics entries t).length = 8 ∧
    ∀ i : ℕ, (mean_metrics entries t).getD i 0
      = (entries.map fun e => (metrics (post e.1 e.2 t) e.2).getD i 0).sum
          / (entries.length : ℝ) := by
  constructor
  · simp only [mean_metrics, List.length_map, metric_accum]
    exact accum_length entries t _ (by simp)
  · intro i
    unfold mean_metrics metric_accum
    rw [getD_map_div, getD_accum entries t i _ (by simp), getD_replicate_zero,
      zero_add]

end Val
